import Mathlib

/-!
Verification of the dependency-free ZIP (STORE) writer: path sanitization,
CRC-32 checksum, per-entry record layout, central-directory offsets and the
end-of-central-directory summary record.

Bytes are modelled as natural numbers below 256, byte buffers as `List Nat`.
JavaScript's `n & 0xff` on a non-negative integer is `n % 256`, and
`(n >>> k) & 0xff` is `n / 2 ^ k % 256` (the implicit ToUint32 truncation of
`>>>` is absorbed because `2 ^ 24 * 256 = 2 ^ 32`), so `u16le`/`u32le` encode
their argument modulo the field width, exactly as the source does.
-/

namespace Zip

/-- Little-endian 16-bit field: source `u16le`. -/
def u16le (n : Nat) : List Nat := [n % 256, n / 256 % 256]

/-- Little-endian 32-bit field: source `u32le`. -/
def u32le (n : Nat) : List Nat :=
  [n % 256, n / 256 % 256, n / 65536 % 256, n / 16777216 % 256]

/-- Source `concat`: flatten a list of byte chunks. -/
def concat (chunks : List (List Nat)) : List Nat := chunks.flatten

/-- One iteration of the reflected CRC-32 bit loop from the `CRC_TABLE`
initializer: `c = (c & 1) ? (0xedb88320 ^ (c >>> 1)) : (c >>> 1)`. -/
def crcBitStep (c : Nat) : Nat :=
  if c % 2 = 1 then 0xedb88320 ^^^ c / 2 else c / 2

/-- Eight iterations of `crcBitStep`: the inner `for k` loop of the table
initializer, applied to one starting value. -/
def crc8 (c : Nat) : Nat :=
  crcBitStep (crcBitStep (crcBitStep (crcBitStep
    (crcBitStep (crcBitStep (crcBitStep (crcBitStep c)))))))

/-- The 256-entry CRC lookup table: entry `i` is the 8-fold bit loop run on `i`. -/
def CRC_TABLE : List Nat := (List.range 256).map crc8

/-- Source `crc32`: table-driven CRC-32 over a byte sequence. -/
def crc32 (data : List Nat) : Nat :=
  (data.foldl
    (fun crc b => CRC_TABLE.getD ((crc ^^^ b) % 256) 0 ^^^ crc / 256)
    0xffffffff) ^^^ 0xffffffff

/-- Bit-by-bit reflected-polynomial (0xEDB88320) reference CRC-32, stated from
the spec's description of the interchangeable non-table algorithm: xor each
byte into the accumulator and run the bit loop eight times. -/
def crc32Reference (data : List Nat) : Nat :=
  (data.foldl (fun crc b => crc8 (crc ^^^ b)) 0xffffffff) ^^^ 0xffffffff

/-- UTF-8 encoding of one code point into bytes (TextEncoder semantics for
scalar values). -/
def utf8EncodeCharNat (n : Nat) : List Nat :=
  if n < 0x80 then [n]
  else if n < 0x800 then [0xC0 + n / 64, 0x80 + n % 64]
  else if n < 0x10000 then
    [0xE0 + n / 4096, 0x80 + n / 64 % 64, 0x80 + n % 64]
  else
    [0xF0 + n / 262144, 0x80 + n / 4096 % 64, 0x80 + n / 64 % 64, 0x80 + n % 64]

/-- `textEncoder.encode`: UTF-8 bytes of a string. -/
def utf8Encode (s : String) : List Nat :=
  s.data.flatMap (fun c => utf8EncodeCharNat c.toNat)

/-- Keep predicate of the path filter: `seg && seg !== "." && seg !== ".."`. -/
def segKeep (seg : List Char) : Bool :=
  !seg.isEmpty && seg != ['.'] && seg != ['.', '.']

/-- JavaScript `s.split("/")` on a character list. -/
def splitSlash : List Char → List (List Char)
  | [] => [[]]
  | c :: rest =>
    if c = '/' then [] :: splitSlash rest
    else
      match splitSlash rest with
      | [] => [[c]]
      | s :: ss => (c :: s) :: ss

/-- JavaScript `segs.join("/")` on character lists. -/
def joinSlash : List (List Char) → List Char
  | [] => []
  | [s] => s
  | s :: rest => s ++ '/' :: joinSlash rest

/-- Source `normalizePath`: backslashes to slashes, strip leading slashes,
drop empty/`.`/`..` segments, rejoin with `/`. -/
def normalizePath (p : String) : String :=
  let replaced := p.data.map (fun c => if c = '\\' then '/' else c)
  let stripped := replaced.dropWhile (fun c => c == '/')
  String.mk (joinSlash ((splitSlash stripped).filter segKeep))

/-- Source `ZipFileInput.data`: a `Uint8Array | string` union. -/
inductive ZipData where
  | bytes : List Nat → ZipData
  | str : String → ZipData

/-- Source `ZipFileInput`. -/
structure ZipFileInput where
  path : String
  data : ZipData

/-- Source `toBytes`: encode strings as UTF-8, pass byte arrays through. -/
def toBytes : ZipData → List Nat
  | .bytes b => b
  | .str s => utf8Encode s

/-- Local file header + name + data for one entry (loop body of
`createZipStore`). -/
def localRecord (nameBytes dataBytes : List Nat) : List Nat :=
  concat [concat
    [u32le 0x04034b50, u16le 20, u16le 0, u16le 0, u16le 0, u16le 0,
     u32le (crc32 dataBytes), u32le dataBytes.length, u32le dataBytes.length,
     u16le nameBytes.length, u16le 0],
    nameBytes, dataBytes]

/-- Central directory record for one entry at a given local-header offset. -/
def centralRecord (nameBytes dataBytes : List Nat) (offset : Nat) : List Nat :=
  concat [concat
    [u32le 0x02014b50, u16le 0x0314, u16le 20, u16le 0, u16le 0, u16le 0,
     u16le 0, u32le (crc32 dataBytes), u32le dataBytes.length,
     u32le dataBytes.length, u16le nameBytes.length, u16le 0, u16le 0,
     u16le 0, u16le 0, u32le 0, u32le offset],
    nameBytes]

/-- One iteration of the `for (const f of files)` loop: state is
(localParts, centralParts, offset). -/
def zipStep (acc : List (List Nat) × List (List Nat) × Nat) (f : ZipFileInput) :
    List (List Nat) × List (List Nat) × Nat :=
  let path := normalizePath f.path
  if path = "" then acc
  else
    let nameBytes := utf8Encode path
    let dataBytes := toBytes f.data
    let lr := localRecord nameBytes dataBytes
    let cr := centralRecord nameBytes dataBytes acc.2.2
    (acc.1 ++ [lr], acc.2.1 ++ [cr], acc.2.2 + lr.length)

/-- The whole entry loop of `createZipStore`. -/
def buildParts (files : List ZipFileInput) :
    List (List Nat) × List (List Nat) × Nat :=
  files.foldl zipStep ([], [], 0)

/-- Source `localParts` after the loop. -/
def localParts (files : List ZipFileInput) : List (List Nat) :=
  (buildParts files).1

/-- Source `centralParts` after the loop. -/
def centralParts (files : List ZipFileInput) : List (List Nat) :=
  (buildParts files).2.1

/-- Source `localBlob`. -/
def localBlob (files : List ZipFileInput) : List Nat :=
  concat (localParts files)

/-- Source `centralBlob`. -/
def centralBlob (files : List ZipFileInput) : List Nat :=
  concat (centralParts files)

/-- Source `entries`: number of central-directory records. -/
def entryCount (files : List ZipFileInput) : Nat :=
  (centralParts files).length

/-- Source `eocd`: the 22-byte end-of-central-directory record. -/
def eocd (files : List ZipFileInput) : List Nat :=
  concat
    [u32le 0x06054b50, u16le 0, u16le 0, u16le (entryCount files),
     u16le (entryCount files), u32le (centralBlob files).length,
     u32le (localBlob files).length, u16le 0]

/-- Source `createZipStore`: local records, then central directory, then the
end record. -/
def createZipStore (files : List ZipFileInput) : List Nat :=
  localBlob files ++ centralBlob files ++ eocd files

/-! ### Characterization of the entry loop -/

/-- Does `createZipStore` keep this entry? (the `if (!path) continue` test). -/
def keepEntry (f : ZipFileInput) : Bool := normalizePath f.path != ""

/-- Name bytes written for a kept entry. -/
def nameBytesOf (f : ZipFileInput) : List Nat :=
  utf8Encode (normalizePath f.path)

/-- The local record produced for one kept entry. -/
def localRecOf (f : ZipFileInput) : List Nat :=
  localRecord (nameBytesOf f) (toBytes f.data)

/-- The list of local records, as a map over the surviving entries. -/
def localsSpec (files : List ZipFileInput) : List (List Nat) :=
  (files.filter keepEntry).map localRecOf

/-- The list of central records starting from a given running offset. -/
def centralsFrom (off : Nat) : List ZipFileInput → List (List Nat)
  | [] => []
  | f :: rest =>
    if normalizePath f.path = "" then centralsFrom off rest
    else
      centralRecord (nameBytesOf f) (toBytes f.data) off ::
        centralsFrom (off + (localRecOf f).length) rest

/-- Total byte length of all local records. -/
def totalLocal (files : List ZipFileInput) : Nat :=
  ((localsSpec files).map List.length).sum

lemma zipStep_drop (acc : List (List Nat) × List (List Nat) × Nat)
    (f : ZipFileInput) (h : normalizePath f.path = "") : zipStep acc f = acc := by
  simp [zipStep, h]

lemma zipStep_keep (acc : List (List Nat) × List (List Nat) × Nat)
    (f : ZipFileInput) (h : ¬ normalizePath f.path = "") :
    zipStep acc f =
      (acc.1 ++ [localRecOf f],
       acc.2.1 ++ [centralRecord (nameBytesOf f) (toBytes f.data) acc.2.2],
       acc.2.2 + (localRecOf f).length) := by
  simp [zipStep, h, localRecOf, nameBytesOf]

lemma foldl_zipStep_eq (files : List ZipFileInput) :
    ∀ ls cs off, files.foldl zipStep (ls, cs, off) =
      (ls ++ localsSpec files, cs ++ centralsFrom off files,
        off + totalLocal files) := by
  induction files with
  | nil => intro ls cs off; simp [localsSpec, centralsFrom, totalLocal]
  | cons f rest ih =>
    intro ls cs off
    by_cases h : normalizePath f.path = ""
    · have hk : keepEntry f = false := by simp [keepEntry, h]
      rw [List.foldl_cons, zipStep_drop _ _ h, ih]
      simp [localsSpec, totalLocal, centralsFrom, List.filter_cons, hk, h]
    · have hk : keepEntry f = true := by simp [keepEntry, h]
      rw [List.foldl_cons, zipStep_keep _ _ h, ih]
      simp only [localsSpec, totalLocal, centralsFrom, List.filter_cons, hk,
        if_pos, List.map_cons, List.sum_cons, if_neg h, Prod.mk.injEq]
      refine ⟨by simp, by simp, by omega⟩

lemma buildParts_eq (files : List ZipFileInput) :
    buildParts files =
      (localsSpec files, centralsFrom 0 files, totalLocal files) := by
  simpa using foldl_zipStep_eq files [] [] 0

lemma localParts_eq (files : List ZipFileInput) :
    localParts files = localsSpec files := by
  simp [localParts, buildParts_eq]

lemma centralParts_eq (files : List ZipFileInput) :
    centralParts files = centralsFrom 0 files := by
  simp [centralParts, buildParts_eq]

lemma zipStep_congr (acc : List (List Nat) × List (List Nat) × Nat)
    (f g : ZipFileInput) (hp : normalizePath f.path = normalizePath g.path)
    (hd : toBytes f.data = toBytes g.data) : zipStep acc f = zipStep acc g := by
  simp only [zipStep, hp, hd]

lemma createZipStore_congr (files₁ files₂ : List ZipFileInput)
    (h : buildParts files₁ = buildParts files₂) :
    createZipStore files₁ = createZipStore files₂ := by
  simp only [createZipStore, localBlob, centralBlob, eocd, entryCount,
    localParts, centralParts, h]

lemma buildParts_middle_congr (pre post : List ZipFileInput)
    (f g : ZipFileInput) (hp : normalizePath f.path = normalizePath g.path)
    (hd : toBytes f.data = toBytes g.data) :
    buildParts (pre ++ f :: post) = buildParts (pre ++ g :: post) := by
  simp only [buildParts, List.foldl_append, List.foldl_cons,
    zipStep_congr _ f g hp hd]

/-! ### Settled claims: empty archive, path-normalization examples,
traversal entry, string data -/

/-- C8: the empty entry list yields exactly the 22-byte end record whose
entry counts, central-directory size and offset are all zero. -/
theorem createZipStore_nil_eq_empty_eocd :
    (createZipStore []).length = 22 ∧
    createZipStore [] =
      u32le 0x06054b50 ++ u16le 0 ++ u16le 0 ++ u16le 0 ++ u16le 0 ++
        u32le 0 ++ u32le 0 ++ u16le 0 :=
  ⟨rfl, rfl⟩

/-- C3 counterexample: the code does not resolve `..` against the preceding
segment, it deletes the `..` segment, so `"/a/./b/../c.txt"` normalizes to
`"a/b/c.txt"` and not to `"a/c.txt"` as claimed. -/
theorem normalizePath_dotdot_counterexample :
    normalizePath "/a/./b/../c.txt" = "a/b/c.txt" ∧
    normalizePath "/a/./b/../c.txt" ≠ "a/c.txt" := by
  exact ⟨by decide, by decide⟩

/-- C3 amended: `"..\\..\\evil.txt"` normalizes to `"evil.txt"`, and
`"/a/./b/../c.txt"` normalizes to `"a/b/c.txt"` (the `.` and `..` segments
are discarded; surviving segments, including `b`, are kept). -/
theorem normalizePath_examples :
    normalizePath "..\\..\\evil.txt" = "evil.txt" ∧
    normalizePath "/a/./b/../c.txt" = "a/b/c.txt" := by
  exact ⟨by decide, by decide⟩

/-- C2 counterexample: `"../../secret"` does not normalize to the empty path;
it normalizes to `"secret"`, and the entry does change the produced archive. -/
theorem traversal_entry_counterexample :
    normalizePath "../../secret" = "secret" ∧
    createZipStore [⟨"../../secret", ZipData.str "x"⟩] ≠ createZipStore [] := by
  exact ⟨by decide, by decide⟩

/-- C2 amended: the entry `("../../secret", "x")` normalizes to `"secret"`
(the `..` segments are stripped, the final segment survives), so it is not
dropped: the archive is byte-identical to the archive of the same entry list
with that entry renamed to `"secret"`, and its local record appears in the
output; the remaining valid entries are kept unchanged. -/
theorem traversal_entry_kept_as_secret :
    normalizePath "../../secret" = "secret" ∧
    (∀ pre post : List ZipFileInput,
      createZipStore (pre ++ ⟨"../../secret", ZipData.str "x"⟩ :: post) =
        createZipStore (pre ++ ⟨"secret", ZipData.str "x"⟩ :: post)) ∧
    (∀ pre post : List ZipFileInput,
      localRecord (utf8Encode "secret") (utf8Encode "x") ∈
        localParts (pre ++ ⟨"../../secret", ZipData.str "x"⟩ :: post)) := by
  refine ⟨by decide, ?_, ?_⟩
  · intro pre post
    exact createZipStore_congr _ _
      (buildParts_middle_congr pre post _ _ (by decide) rfl)
  · intro pre post
    rw [localParts_eq, localsSpec]
    have hmem : (⟨"../../secret", ZipData.str "x"⟩ : ZipFileInput) ∈
        (pre ++ ⟨"../../secret", ZipData.str "x"⟩ :: post).filter keepEntry := by
      rw [List.mem_filter]
      exact ⟨List.mem_append_right _ (List.mem_cons_self _ _), by decide⟩
    have := List.mem_map_of_mem localRecOf hmem
    simpa [localRecOf, nameBytesOf, toBytes, show normalizePath "../../secret" = "secret" by decide] using this

/-- C10: supplying an entry's data as a string is equivalent to supplying its
UTF-8 encoding; the archives are byte-identical. -/
theorem string_data_eq_utf8_bytes (p : String) (s : String)
    (rest : List ZipFileInput) :
    createZipStore (⟨p, ZipData.str s⟩ :: rest) =
      createZipStore (⟨p, ZipData.bytes (utf8Encode s)⟩ :: rest) :=
  createZipStore_congr _ _
    (buildParts_middle_congr [] rest ⟨p, ZipData.str s⟩
      ⟨p, ZipData.bytes (utf8Encode s)⟩ rfl rfl)

/-! ### Summary law (end record) and offset law (central directory) -/

lemma eocd_length (files : List ZipFileInput) : (eocd files).length = 22 := rfl

/-- C5: the end record stores the total size of the local records as the
central-directory offset and the total size of the central records as the
central-directory size, and the archive is exactly those two blobs plus the
22-byte end record. -/
theorem summary_law (files : List ZipFileInput) :
    (createZipStore files).length =
      (localBlob files).length + (centralBlob files).length + 22 ∧
    (localBlob files).length = ((localParts files).map List.length).sum ∧
    (centralBlob files).length = ((centralParts files).map List.length).sum ∧
    ((createZipStore files).drop
      ((localBlob files).length + (centralBlob files).length + 16)).take 4 =
      u32le (localBlob files).length ∧
    ((createZipStore files).drop
      ((localBlob files).length + (centralBlob files).length + 12)).take 4 =
      u32le (centralBlob files).length := by
  have hdrop : ∀ n, (createZipStore files).drop
      ((localBlob files).length + (centralBlob files).length + n) =
      (eocd files).drop n := by
    intro n
    rw [createZipStore,
      show (localBlob files).length + (centralBlob files).length + n =
        (localBlob files ++ centralBlob files).length + n by simp,
      List.drop_append]
  refine ⟨?_, ?_, ?_, ?_, ?_⟩
  · rw [createZipStore]
    simp [eocd_length]
    omega
  · simp [localBlob, concat]
  · simp [centralBlob, concat]
  · rw [hdrop 16]; rfl
  · rw [hdrop 12]; rfl

lemma centralRecord_offset_slice (nb db : List Nat) (off : Nat) :
    ((centralRecord nb db off).drop 42).take 4 = u32le off := rfl

lemma centralsFrom_getD (files : List ZipFileInput) :
    ∀ off i, i < (centralsFrom off files).length →
      (((centralsFrom off files).getD i []).drop 42).take 4 =
        u32le (off + (((localsSpec files).take i).map List.length).sum) := by
  induction files with
  | nil => intro off i h; simp [centralsFrom] at h
  | cons f rest ih =>
    intro off i h
    by_cases hp : normalizePath f.path = ""
    · have hk : keepEntry f = false := by simp [keepEntry, hp]
      rw [centralsFrom, if_pos hp] at h ⊢
      have hs : localsSpec (f :: rest) = localsSpec rest := by
        simp [localsSpec, List.filter_cons, hk]
      rw [hs]
      exact ih off i h
    · have hk : keepEntry f = true := by simp [keepEntry, hp]
      have hs : localsSpec (f :: rest) = localRecOf f :: localsSpec rest := by
        simp [localsSpec, List.filter_cons, hk]
      rw [centralsFrom, if_neg hp] at h ⊢
      cases i with
      | zero => simp [centralRecord_offset_slice]
      | succ i =>
        rw [List.getD_cons_succ]
        have hlen : i < (centralsFrom (off + (localRecOf f).length) rest).length := by
          simpa using h
        have := ih (off + (localRecOf f).length) i hlen
        rw [this, hs]
        congr 1
        simp only [List.take_succ_cons, List.map_cons, List.sum_cons]
        omega

/-- C4: the offset field (bytes 42..45) of the i-th central-directory record
equals the little-endian encoding of the summed byte lengths of the local
records before index i. -/
theorem offset_law (files : List ZipFileInput) (i : Nat)
    (h : i < (centralParts files).length) :
    (((centralParts files).getD i []).drop 42).take 4 =
      u32le ((((localParts files).take i).map List.length).sum) := by
  rw [centralParts_eq] at h ⊢
  rw [localParts_eq]
  simpa using centralsFrom_getD files 0 i h

/-- Witness for the offset law: in a two-entry archive, the second central
record stores the length of the first local record. -/
theorem offset_law_witness :
    1 < (centralParts [⟨"a", ZipData.bytes []⟩, ⟨"b", ZipData.bytes [1]⟩]).length ∧
    (((centralParts [⟨"a", ZipData.bytes []⟩,
        ⟨"b", ZipData.bytes [1]⟩]).getD 1 []).drop 42).take 4 =
      u32le ((((localParts [⟨"a", ZipData.bytes []⟩,
        ⟨"b", ZipData.bytes [1]⟩]).take 1).map List.length).sum) :=
  ⟨by decide, offset_law _ 1 (by decide)⟩

/-! ### Numeric wrapping and local-record layout -/

lemma createZipStore_drop_eocd (files : List ZipFileInput) (n : Nat) :
    (createZipStore files).drop
      ((localBlob files).length + (centralBlob files).length + n) =
      (eocd files).drop n := by
  rw [createZipStore,
    show (localBlob files).length + (centralBlob files).length + n =
      (localBlob files ++ centralBlob files).length + n by simp,
    List.drop_append]

lemma centralsFrom_length (files : List ZipFileInput) :
    ∀ off, (centralsFrom off files).length =
      (files.filter keepEntry).length := by
  induction files with
  | nil => intro off; simp [centralsFrom]
  | cons f rest ih =>
    intro off
    by_cases hp : normalizePath f.path = ""
    · have hk : keepEntry f = false := by simp [keepEntry, hp]
      simp [centralsFrom, hp, List.filter_cons, hk, ih]
    · have hk : keepEntry f = true := by simp [keepEntry, hp]
      simp [centralsFrom, hp, List.filter_cons, hk, ih]

lemma entryCount_eq (files : List ZipFileInput) :
    entryCount files = (files.filter keepEntry).length := by
  rw [entryCount, centralParts_eq, centralsFrom_length]

lemma u16le_mod (n : Nat) : u16le n = u16le (n % 65536) := by
  simp only [u16le, List.cons.injEq, and_true]
  exact ⟨by omega, by omega⟩

lemma u32le_mod (n : Nat) : u32le n = u32le (n % 4294967296) := by
  simp only [u32le, List.cons.injEq, and_true]
  exact ⟨by omega, by omega, by omega, by omega⟩

/-- C9: every numeric field wraps silently at its width. `u16le`/`u32le`
depend only on their argument modulo 2^16 / 2^32, and the end record's
entry-count fields hold the surviving-entry count modulo 2^16 while its
32-bit size/offset fields hold their values modulo 2^32; no input is
rejected. -/
theorem numeric_fields_wrap :
    (∀ n, u16le n = u16le (n % 65536)) ∧
    (∀ n, u32le n = u32le (n % 4294967296)) ∧
    ∀ files : List ZipFileInput,
      entryCount files = (files.filter keepEntry).length ∧
      ((createZipStore files).drop
        ((localBlob files).length + (centralBlob files).length + 8)).take 2 =
        u16le ((files.filter keepEntry).length % 65536) ∧
      ((createZipStore files).drop
        ((localBlob files).length + (centralBlob files).length + 10)).take 2 =
        u16le ((files.filter keepEntry).length % 65536) ∧
      ((createZipStore files).drop
        ((localBlob files).length + (centralBlob files).length + 12)).take 4 =
        u32le ((centralBlob files).length % 4294967296) ∧
      ((createZipStore files).drop
        ((localBlob files).length + (centralBlob files).length + 16)).take 4 =
        u32le ((localBlob files).length % 4294967296) := by
  refine ⟨u16le_mod, u32le_mod, ?_⟩
  intro files
  have h8 : ((eocd files).drop 8).take 2 = u16le (entryCount files) := rfl
  have h10 : ((eocd files).drop 10).take 2 = u16le (entryCount files) := rfl
  have h12 : ((eocd files).drop 12).take 4 = u32le (centralBlob files).length := rfl
  have h16 : ((eocd files).drop 16).take 4 = u32le (localBlob files).length := rfl
  refine ⟨entryCount_eq files, ?_, ?_, ?_, ?_⟩
  · rw [createZipStore_drop_eocd, h8, entryCount_eq, u16le_mod]
  · rw [createZipStore_drop_eocd, h10, entryCount_eq, u16le_mod]
  · rw [createZipStore_drop_eocd, h12, u32le_mod]
  · rw [createZipStore_drop_eocd, h16, u32le_mod]

lemma localRecord_length (nb db : List Nat) :
    (localRecord nb db).length = 30 + nb.length + db.length := by
  simp [localRecord, concat, u16le, u32le]
  omega

lemma localRecord_drop30 (nb db : List Nat) :
    (localRecord nb db).drop 30 = nb ++ db := by
  have hform : localRecord nb db =
      [80, 75, 3, 4, 20, 0, 0, 0, 0, 0, 0, 0, 0, 0,
       crc32 db % 256, crc32 db / 256 % 256, crc32 db / 65536 % 256,
       crc32 db / 16777216 % 256,
       db.length % 256, db.length / 256 % 256, db.length / 65536 % 256,
       db.length / 16777216 % 256,
       db.length % 256, db.length / 256 % 256, db.length / 65536 % 256,
       db.length / 16777216 % 256,
       nb.length % 256, nb.length / 256 % 256, 0, 0] ++ (nb ++ db) := by
    simp [localRecord, concat, u16le, u32le]
  rw [hform]
  exact List.drop_left' rfl

lemma localRecOf_mem (files : List ZipFileInput) (f : ZipFileInput)
    (hf : f ∈ files) (hk : keepEntry f = true) :
    localRecOf f ∈ localParts files := by
  rw [localParts_eq, localsSpec]
  exact List.mem_map_of_mem localRecOf (List.mem_filter.mpr ⟨hf, hk⟩)

/-- C7: each surviving entry's local record is written to the archive; a local
record is 30 + name + content bytes laid out as the PK\x03\x04 signature,
version-needed 20, flags 0, method 0, time 0, date 0, CRC-32, compressed and
uncompressed sizes both the content length, name length, extra length 0, the
name bytes, then the content verbatim. -/
theorem local_record_layout (files : List ZipFileInput) (f : ZipFileInput)
    (hf : f ∈ files) (hkeep : normalizePath f.path ≠ "") :
    localRecord (nameBytesOf f) (toBytes f.data) ∈ localParts files ∧
    ∀ nb db : List Nat,
      (localRecord nb db).length = 30 + nb.length + db.length ∧
      (localRecord nb db).take 4 = [80, 75, 3, 4] ∧
      ((localRecord nb db).drop 4).take 2 = u16le 20 ∧
      ((localRecord nb db).drop 6).take 2 = u16le 0 ∧
      ((localRecord nb db).drop 8).take 2 = u16le 0 ∧
      ((localRecord nb db).drop 10).take 2 = u16le 0 ∧
      ((localRecord nb db).drop 12).take 2 = u16le 0 ∧
      ((localRecord nb db).drop 14).take 4 = u32le (crc32 db) ∧
      ((localRecord nb db).drop 18).take 4 = u32le db.length ∧
      ((localRecord nb db).drop 22).take 4 = u32le db.length ∧
      ((localRecord nb db).drop 26).take 2 = u16le nb.length ∧
      ((localRecord nb db).drop 28).take 2 = u16le 0 ∧
      (localRecord nb db).drop 30 = nb ++ db := by
  constructor
  · exact localRecOf_mem files f hf (by simp [keepEntry, hkeep])
  · intro nb db
    exact ⟨localRecord_length nb db, rfl, rfl, rfl, rfl, rfl, rfl, rfl, rfl,
      rfl, rfl, rfl, localRecord_drop30 nb db⟩

/-- Witness for the local-record layout: the entry ("a", one zero byte) of a
one-entry archive. -/
theorem local_record_layout_witness :
    (⟨"a", ZipData.bytes [0]⟩ : ZipFileInput) ∈
        [(⟨"a", ZipData.bytes [0]⟩ : ZipFileInput)] ∧
    normalizePath "a" ≠ "" ∧
    localRecord (nameBytesOf ⟨"a", ZipData.bytes [0]⟩)
        (toBytes (ZipData.bytes [0])) ∈
      localParts [⟨"a", ZipData.bytes [0]⟩] :=
  ⟨List.mem_singleton.mpr rfl, by decide,
    (local_record_layout [⟨"a", ZipData.bytes [0]⟩] ⟨"a", ZipData.bytes [0]⟩
      (List.mem_singleton.mpr rfl) (by decide)).1⟩

/-! ### Normalized names: every name written to the archive is clean -/

/-- A name is normalized when it contains no backslash, does not start with a
slash, and none of its slash-separated segments is empty, `.` or `..`. -/
def isNormalizedName (s : String) : Prop :=
  ('\\' ∉ s.data) ∧ s.data.head? ≠ some '/' ∧
  ∀ seg ∈ splitSlash s.data, seg ≠ [] ∧ seg ≠ ['.'] ∧ seg ≠ ['.', '.']

lemma segKeep_spec {s : List Char} (h : segKeep s = true) :
    s ≠ [] ∧ s ≠ ['.'] ∧ s ≠ ['.', '.'] := by
  simp only [segKeep, Bool.and_eq_true, bne_iff_ne, ne_eq,
    Bool.not_eq_true', List.isEmpty_eq_false] at h
  exact ⟨h.1.1, h.1.2, h.2⟩

lemma splitSlash_no_sep :
    ∀ (l : List Char), ∀ seg ∈ splitSlash l, '/' ∉ seg := by
  intro l
  induction l with
  | nil =>
    intro seg hs
    simp only [splitSlash, List.mem_singleton] at hs
    subst hs; simp
  | cons c rest ih =>
    intro seg hs
    by_cases hc : c = '/'
    · simp only [splitSlash, if_pos hc] at hs
      rcases List.mem_cons.mp hs with h | h
      · subst h; simp
      · exact ih seg h
    · simp only [splitSlash, if_neg hc] at hs
      cases hsr : splitSlash rest with
      | nil => rw [hsr] at hs; simp only [List.mem_singleton] at hs; subst hs
               simp [Ne.symm hc]
      | cons s ss =>
        rw [hsr] at hs
        rcases List.mem_cons.mp hs with h | h
        · subst h
          intro hmem
          rcases List.mem_cons.mp hmem with h' | h'
          · exact hc h'.symm
          · exact ih s (by rw [hsr]; exact List.mem_cons_self _ _) h'
        · exact ih seg (by rw [hsr]; exact List.mem_cons_of_mem _ h)

lemma splitSlash_chars :
    ∀ (l : List Char), ∀ seg ∈ splitSlash l, ∀ c ∈ seg, c ∈ l := by
  intro l
  induction l with
  | nil =>
    intro seg hs
    simp only [splitSlash, List.mem_singleton] at hs
    subst hs; simp
  | cons a rest ih =>
    intro seg hs c hc
    by_cases ha : a = '/'
    · simp only [splitSlash, if_pos ha] at hs
      rcases List.mem_cons.mp hs with h | h
      · subst h; simp at hc
      · exact List.mem_cons_of_mem _ (ih seg h c hc)
    · simp only [splitSlash, if_neg ha] at hs
      cases hsr : splitSlash rest with
      | nil =>
        rw [hsr] at hs; simp only [List.mem_singleton] at hs; subst hs
        simp only [List.mem_singleton] at hc; subst hc
        exact List.mem_cons_self _ _
      | cons s ss =>
        rw [hsr] at hs
        rcases List.mem_cons.mp hs with h | h
        · subst h
          rcases List.mem_cons.mp hc with h' | h'
          · subst h'; exact List.mem_cons_self _ _
          · exact List.mem_cons_of_mem _
              (ih s (by rw [hsr]; exact List.mem_cons_self _ _) c h')
        · exact List.mem_cons_of_mem _
            (ih seg (by rw [hsr]; exact List.mem_cons_of_mem _ h) c hc)

lemma joinSlash_mem :
    ∀ (segs : List (List Char)), ∀ c ∈ joinSlash segs,
      c = '/' ∨ ∃ seg ∈ segs, c ∈ seg := by
  intro segs
  induction segs with
  | nil => intro c hc; simp [joinSlash] at hc
  | cons s rest ih =>
    cases rest with
    | nil =>
      intro c hc
      right
      exact ⟨s, List.mem_cons_self _ _, by simpa [joinSlash] using hc⟩
    | cons t ts =>
      intro c hc
      simp only [joinSlash] at hc
      rcases List.mem_append.mp hc with h | h
      · right; exact ⟨s, List.mem_cons_self _ _, h⟩
      · rcases List.mem_cons.mp h with h' | h'
        · left; exact h'
        · rcases ih c h' with h'' | ⟨seg, hseg, hcseg⟩
          · left; exact h''
          · right; exact ⟨seg, List.mem_cons_of_mem _ hseg, hcseg⟩

lemma splitSlash_of_no_sep :
    ∀ (s : List Char), '/' ∉ s → splitSlash s = [s] := by
  intro s
  induction s with
  | nil => intro; rfl
  | cons c cs ih =>
    intro h
    have hc : ¬ c = '/' := fun hh => h (hh ▸ List.mem_cons_self _ _)
    have hcs : '/' ∉ cs := fun hh => h (List.mem_cons_of_mem _ hh)
    simp only [splitSlash, if_neg hc, ih hcs]

lemma splitSlash_append_sep :
    ∀ (s t : List Char), '/' ∉ s →
      splitSlash (s ++ '/' :: t) = s :: splitSlash t := by
  intro s
  induction s with
  | nil => intro t _; simp [splitSlash]
  | cons c cs ih =>
    intro t h
    have hc : ¬ c = '/' := fun hh => h (hh ▸ List.mem_cons_self _ _)
    have hcs : '/' ∉ cs := fun hh => h (List.mem_cons_of_mem _ hh)
    have hih : splitSlash (cs ++ '/' :: t) = cs :: splitSlash t := ih t hcs
    simp only [List.cons_append, splitSlash, if_neg hc, List.append_eq, hih]

lemma splitSlash_joinSlash :
    ∀ (segs : List (List Char)), segs ≠ [] → (∀ s ∈ segs, '/' ∉ s) →
      splitSlash (joinSlash segs) = segs := by
  intro segs
  induction segs with
  | nil => intro h; exact absurd rfl h
  | cons s rest ih =>
    intro _ hall
    cases rest with
    | nil =>
      simp only [joinSlash]
      exact splitSlash_of_no_sep s (hall s (List.mem_cons_self _ _))
    | cons t ts =>
      simp only [joinSlash]
      rw [splitSlash_append_sep s _ (hall s (List.mem_cons_self _ _)),
        ih (by simp) (fun u hu => hall u (List.mem_cons_of_mem _ hu))]

lemma joinSlash_head (c : Char) (s : List Char) (rest : List (List Char)) :
    (joinSlash ((c :: s) :: rest)).head? = some c := by
  cases rest with
  | nil => rfl
  | cons t ts => simp [joinSlash]

/-- A nonempty list of slash-free clean segments joins into a normalized
name. -/
lemma joined_normalized (segs : List (List Char)) (hne : segs ≠ [])
    (hnoslash : ∀ s ∈ segs, '/' ∉ s)
    (hnobs : ∀ s ∈ segs, '\\' ∉ s)
    (hkeep : ∀ s ∈ segs, s ≠ [] ∧ s ≠ ['.'] ∧ s ≠ ['.', '.']) :
    isNormalizedName (String.mk (joinSlash segs)) := by
  refine ⟨?_, ?_, ?_⟩
  · show '\\' ∉ joinSlash segs
    intro hmem
    rcases joinSlash_mem segs '\\' hmem with h' | ⟨seg, hseg, hcseg⟩
    · exact absurd h' (by decide)
    · exact hnobs seg hseg hcseg
  · show (joinSlash segs).head? ≠ some '/'
    cases segs with
    | nil => exact absurd rfl hne
    | cons s₀ rest =>
      cases hs : s₀ with
      | nil => exact absurd hs (hkeep s₀ (List.mem_cons_self _ _)).1
      | cons c₀ s₀' =>
        subst hs
        rw [joinSlash_head]
        intro hcontr
        have hc₀ : c₀ = '/' := by injection hcontr
        exact hnoslash _ (List.mem_cons_self _ _)
          (hc₀ ▸ List.mem_cons_self _ _)
  · show ∀ seg ∈ splitSlash (joinSlash segs), _
    rw [splitSlash_joinSlash segs hne hnoslash]
    exact hkeep

/-- A nonempty normalized path is a clean name: no backslash, no leading
slash, no empty/`.`/`..` segment. -/
lemma normalizePath_normalized (p : String) (h : normalizePath p ≠ "") :
    isNormalizedName (normalizePath p) := by
  obtain ⟨segs, hp, hsegs⟩ : ∃ segs, normalizePath p =
      String.mk (joinSlash segs) ∧
      segs = (splitSlash ((p.data.map
        (fun c => if c = '\\' then '/' else c)).dropWhile
        (fun c => c == '/'))).filter segKeep := ⟨_, rfl, rfl⟩
  have hkeepB : ∀ s ∈ segs, segKeep s = true := by
    rw [hsegs]; exact fun s hs => (List.mem_filter.mp hs).2
  have hsub : ∀ s ∈ segs, s ∈ splitSlash ((p.data.map
      (fun c => if c = '\\' then '/' else c)).dropWhile
      (fun c => c == '/')) := by
    rw [hsegs]; exact fun s hs => (List.mem_filter.mp hs).1
  have hnoslash : ∀ s ∈ segs, '/' ∉ s := fun s hs =>
    splitSlash_no_sep _ s (hsub s hs)
  have hnobs : ∀ s ∈ segs, '\\' ∉ s := by
    intro s hs hmem
    have hstripped : '\\' ∈ (p.data.map
        (fun c => if c = '\\' then '/' else c)).dropWhile
        (fun c => c == '/') :=
      splitSlash_chars _ s (hsub s hs) '\\' hmem
    have hreplaced : '\\' ∈ p.data.map
        (fun c => if c = '\\' then '/' else c) :=
      (List.dropWhile_sublist _).subset hstripped
    rcases List.mem_map.mp hreplaced with ⟨c, _, hcev⟩
    by_cases hc : c = '\\'
    · rw [if_pos hc] at hcev; exact absurd hcev (by decide)
    · rw [if_neg hc] at hcev; exact hc hcev
  have hne : segs ≠ [] := by
    intro hnil
    apply h
    rw [hp, hnil]
    decide
  rw [hp]
  exact joined_normalized segs hne hnoslash hnobs
    (fun s hs => segKeep_spec (hkeepB s hs))

lemma centralsFrom_mem (files : List ZipFileInput) :
    ∀ off cr, cr ∈ centralsFrom off files →
      ∃ f o, f ∈ files ∧ normalizePath f.path ≠ "" ∧
        cr = centralRecord (nameBytesOf f) (toBytes f.data) o := by
  induction files with
  | nil => intro off cr h; simp [centralsFrom] at h
  | cons f rest ih =>
    intro off cr h
    by_cases hp : normalizePath f.path = ""
    · rw [centralsFrom, if_pos hp] at h
      obtain ⟨g, o, hg, hgp, hcr⟩ := ih off cr h
      exact ⟨g, o, List.mem_cons_of_mem _ hg, hgp, hcr⟩
    · rw [centralsFrom, if_neg hp] at h
      rcases List.mem_cons.mp h with h' | h'
      · exact ⟨f, off, List.mem_cons_self _ _, hp, h'⟩
      · obtain ⟨g, o, hg, hgp, hcr⟩ :=
          ih (off + (localRecOf f).length) cr h'
        exact ⟨g, o, List.mem_cons_of_mem _ hg, hgp, hcr⟩

/-- C1: every record written to the archive carries the normalized form of
some input entry's path, and every such surviving name is normalized: only
forward slashes, no leading slash, no empty/`.`/`..` segments. -/
theorem names_normalized (files : List ZipFileInput) :
    (∀ lr ∈ localParts files, ∃ f, f ∈ files ∧ normalizePath f.path ≠ "" ∧
      isNormalizedName (normalizePath f.path) ∧
      lr = localRecord (utf8Encode (normalizePath f.path)) (toBytes f.data)) ∧
    (∀ cr ∈ centralParts files, ∃ f off, f ∈ files ∧
      normalizePath f.path ≠ "" ∧
      isNormalizedName (normalizePath f.path) ∧
      cr = centralRecord (utf8Encode (normalizePath f.path)) (toBytes f.data)
        off) := by
  constructor
  · intro lr hlr
    rw [localParts_eq, localsSpec] at hlr
    obtain ⟨f, hf, rfl⟩ := List.mem_map.mp hlr
    obtain ⟨hfm, hfk⟩ := List.mem_filter.mp hf
    have hne : normalizePath f.path ≠ "" := by
      simpa [keepEntry] using hfk
    exact ⟨f, hfm, hne, normalizePath_normalized _ hne, rfl⟩
  · intro cr hcr
    rw [centralParts_eq] at hcr
    obtain ⟨f, o, hf, hne, hcr'⟩ := centralsFrom_mem files 0 cr hcr
    exact ⟨f, o, hf, hne, normalizePath_normalized _ hne, hcr'⟩

/-- Witness for the normalization invariant: the single record of a one-entry
archive comes from the entry "a", whose normalized path is normalized. -/
theorem names_normalized_witness :
    localRecord (utf8Encode "a") [] ∈ localParts [⟨"a", ZipData.bytes []⟩] ∧
    ∃ f, f ∈ [(⟨"a", ZipData.bytes []⟩ : ZipFileInput)] ∧
      normalizePath f.path ≠ "" ∧
      isNormalizedName (normalizePath f.path) ∧
      localRecord (utf8Encode "a") [] =
        localRecord (utf8Encode (normalizePath f.path)) (toBytes f.data) :=
  ⟨by decide, (names_normalized [⟨"a", ZipData.bytes []⟩]).1
    (localRecord (utf8Encode "a") []) (by decide)⟩

/-! ### CRC-32: the table-driven loop equals the bit-by-bit reference -/

lemma xor_mod_two (a b : Nat) : (a ^^^ b) % 2 = (a % 2 + b % 2) % 2 := by
  have h := Nat.testBit_xor a b 0
  simp only [Nat.testBit_zero] at h
  rcases Nat.mod_two_eq_zero_or_one a with ha | ha <;>
    rcases Nat.mod_two_eq_zero_or_one b with hb | hb <;>
      simp [ha, hb] at h ⊢ <;> omega

lemma crcBitStep_eq (c : Nat) :
    crcBitStep c = (if c % 2 = 1 then 0xedb88320 else 0) ^^^ c / 2 := by
  by_cases h : c % 2 = 1 <;> simp [crcBitStep, h]

lemma xor_xor_xor (x u y v : Nat) :
    (x ^^^ u) ^^^ (y ^^^ v) = (x ^^^ y) ^^^ (u ^^^ v) := by
  apply Nat.eq_of_testBit_eq
  intro i
  simp only [Nat.testBit_xor]
  cases x.testBit i <;> cases u.testBit i <;> cases y.testBit i <;>
    cases v.testBit i <;> rfl

lemma crcBitStep_xor (a b : Nat) :
    crcBitStep (a ^^^ b) = crcBitStep a ^^^ crcBitStep b := by
  have hd : (a ^^^ b) / 2 = a / 2 ^^^ b / 2 := Nat.xor_div_two
  have hm := xor_mod_two a b
  rw [crcBitStep_eq, crcBitStep_eq, crcBitStep_eq, hd, xor_xor_xor]
  congr 1
  rcases Nat.mod_two_eq_zero_or_one a with ha | ha <;>
    rcases Nat.mod_two_eq_zero_or_one b with hb | hb
  · have hab : (a ^^^ b) % 2 = 0 := by omega
    simp [ha, hb, hab]
  · have hab : (a ^^^ b) % 2 = 1 := by omega
    simp [ha, hb, hab]
  · have hab : (a ^^^ b) % 2 = 1 := by omega
    simp [ha, hb, hab]
  · have hab : (a ^^^ b) % 2 = 0 := by omega
    simp [ha, hb, hab]

lemma crc8_xor (a b : Nat) : crc8 (a ^^^ b) = crc8 a ^^^ crc8 b := by
  simp [crc8, crcBitStep_xor]

lemma crcBitStep_double (m : Nat) : crcBitStep (2 * m) = m := by
  rw [crcBitStep]
  have h2 : ¬ (2 * m % 2 = 1) := by omega
  rw [if_neg h2]
  omega

lemma crc8_mul256 (h : Nat) : crc8 (256 * h) = h := by
  have he : 256 * h = 2 * (2 * (2 * (2 * (2 * (2 * (2 * (2 * h))))))) := by
    ring
  rw [he]
  simp [crc8, crcBitStep_double]

lemma table_getD (i : Nat) (h : i < 256) : CRC_TABLE.getD i 0 = crc8 i := by
  rw [CRC_TABLE]
  have hlen : i < ((List.range 256).map crc8).length := by
    simpa using h
  rw [List.getD_eq_getElem _ _ hlen, List.getElem_map, List.getElem_range]

lemma div_shl_xor_mod (x : Nat) : (x >>> 8) <<< 8 ^^^ x % 256 = x := by
  apply Nat.eq_of_testBit_eq
  intro i
  simp only [Nat.testBit_xor, Nat.testBit_shiftLeft, Nat.testBit_shiftRight,
    show (256 : Nat) = 2 ^ 8 by norm_num, Nat.testBit_mod_two_pow]
  by_cases hi : 8 ≤ i
  · have h1 : ¬ i < 8 := by omega
    simp [hi, h1, show 8 + (i - 8) = i by omega]
  · have h1 : i < 8 := by omega
    simp [hi, h1]

lemma crc8_eq_table (x : Nat) :
    crc8 x = CRC_TABLE.getD (x % 256) 0 ^^^ x / 256 := by
  have hshl : (x >>> 8) <<< 8 = 256 * (x >>> 8) := by
    rw [Nat.shiftLeft_eq]; ring
  have hdiv : x >>> 8 = x / 256 := by
    rw [Nat.shiftRight_eq_div_pow]
  calc crc8 x = crc8 ((x >>> 8) <<< 8 ^^^ x % 256) := by
        rw [div_shl_xor_mod]
    _ = crc8 ((x >>> 8) <<< 8) ^^^ crc8 (x % 256) := crc8_xor _ _
    _ = x / 256 ^^^ crc8 (x % 256) := by rw [hshl, crc8_mul256, hdiv]
    _ = crc8 (x % 256) ^^^ x / 256 := Nat.xor_comm _ _
    _ = CRC_TABLE.getD (x % 256) 0 ^^^ x / 256 := by
        rw [table_getD _ (Nat.mod_lt _ (by norm_num))]

lemma xor_small_div (crc b : Nat) (hb : b < 256) :
    (crc ^^^ b) / 256 = crc / 256 := by
  have h : (crc ^^^ b) >>> 8 = crc >>> 8 := by
    apply Nat.eq_of_testBit_eq
    intro i
    simp only [Nat.testBit_shiftRight, Nat.testBit_xor]
    have hble : (256 : Nat) ≤ 2 ^ (8 + i) := by
      calc (256 : Nat) = 2 ^ 8 := by norm_num
        _ ≤ 2 ^ (8 + i) := Nat.pow_le_pow_right (by norm_num) (by omega)
    have hbf : b.testBit (8 + i) = false :=
      Nat.testBit_lt_two_pow (lt_of_lt_of_le hb hble)
    simp [hbf]
  have h256 : ∀ y : Nat, y >>> 8 = y / 256 := by
    intro y; rw [Nat.shiftRight_eq_div_pow]
  rw [← h256, ← h256, h]

lemma crc_table_step (crc b : Nat) (hb : b < 256) :
    CRC_TABLE.getD ((crc ^^^ b) % 256) 0 ^^^ crc / 256 = crc8 (crc ^^^ b) := by
  rw [crc8_eq_table (crc ^^^ b), xor_small_div crc b hb]

lemma crc_fold_eq (data : List Nat) :
    ∀ crc, (∀ b ∈ data, b < 256) →
      data.foldl
        (fun crc b => CRC_TABLE.getD ((crc ^^^ b) % 256) 0 ^^^ crc / 256)
        crc =
      data.foldl (fun crc b => crc8 (crc ^^^ b)) crc := by
  induction data with
  | nil => intro crc _; rfl
  | cons b rest ih =>
    intro crc hall
    simp only [List.foldl_cons]
    rw [crc_table_step crc b (hall b (List.mem_cons_self _ _))]
    exact ih _ (fun x hx => hall x (List.mem_cons_of_mem _ hx))

/-- C6: `crc32` is the standard reflected IEEE/PKZIP CRC-32: it returns 0 on
the empty byte sequence, and the table-driven loop agrees with the bit-by-bit
reflected-polynomial (0xEDB88320) reference on every byte sequence. -/
theorem crc32_spec :
    crc32 [] = 0 ∧
    ∀ data : List Nat, (∀ b ∈ data, b < 256) →
      crc32 data = crc32Reference data := by
  refine ⟨rfl, ?_⟩
  intro data hall
  rw [crc32, crc32Reference, crc_fold_eq data 0xffffffff hall]

/-- Witness for the CRC-32 equivalence on the concrete bytes [0, 255, 1]. -/
theorem crc32_spec_witness :
    (∀ b ∈ [0, 255, 1], b < 256) ∧
    crc32 [0, 255, 1] = crc32Reference [0, 255, 1] :=
  ⟨by decide, crc32_spec.2 [0, 255, 1] (by decide)⟩

end Zip
